import Mathlib

/-!
Verification of the batch certificate generator
(`src/lib/batch-generator.ts` of romega-certificate-creator).

The placeholder engine, recipient loader, recipient validator and the
batch orchestrator's event/archive behaviour are embedded as executable
Lean definitions, translated from the TypeScript source.  Strings are
worked with as `List Char`.  The JavaScript `gi`-regex replacement is
modelled by an explicit engine: ASCII case-insensitive matching, ordered
alternation introduced by a `|` in the regex-injected custom-field key,
the `.` wildcard, and the `$`-substitution patterns of
`String.replace`'s string replacement; regex syntax outside that
fragment (quantifiers, classes, groups, escapes, anchors) and non-ASCII
case folding are not modelled, so the amended placeholder claims
restrict custom keys to `plainKey`, where the pattern is exactly the
literal token.
-/

namespace Cert

/-- ASCII lower-casing of one character, as JavaScript `toLowerCase` /
the `i` regex flag act on the ASCII range: `A`–`Z` (codepoints 65–90)
map to `a`–`z`, every other character is unchanged. -/
def lowerChar (c : Char) : Char :=
  if h : 65 ≤ c.toNat ∧ c.toNat ≤ 90 then
    Char.ofNatAux (c.toNat + 32) (Or.inl (by omega))
  else c

/-- Lower-casing a list of characters. -/
def lowerL (l : List Char) : List Char := l.map lowerChar

/-- A character whose codepoint is outside the lower-case letter range
is a fixed point of pre-images of `lowerChar`: only `c` itself can
lower-case to it. -/
theorem lowerChar_fix {c d : Char} (hd : 122 < d.toNat)
    (h : lowerChar c = d) : c = d := by
  unfold lowerChar at h
  split at h
  · next hr =>
    have hn : c.toNat + 32 = d.toNat := congrArg Char.toNat h
    omega
  · exact h

/-- Only `'{'` itself lower-cases to `'{'`. -/
theorem lowerChar_openBrace {c : Char} (h : lowerChar c = '{') : c = '{' :=
  lowerChar_fix (by decide) h

/-- Only `'}'` itself lower-cases to `'}'`. -/
theorem lowerChar_closeBrace {c : Char} (h : lowerChar c = '}') : c = '}' :=
  lowerChar_fix (by decide) h

/-- Boolean test: does `l` begin with the exact character list `p`? -/
def startsWithL : List Char → List Char → Bool
  | [], _ => true
  | _ :: _, [] => false
  | a :: as, b :: bs => a == b && startsWithL as bs

/-- Boolean test: does `p` occur as a contiguous run inside `l`? -/
def containsSub (p : List Char) : List Char → Bool
  | [] => startsWithL p []
  | c :: cs => startsWithL p (c :: cs) || containsSub p cs

/-- `p` occurs contiguously inside `l`. -/
def occursL (p l : List Char) : Prop := ∃ s t, l = s ++ p ++ t

theorem startsWithL_iff {p l : List Char} :
    startsWithL p l = true ↔ ∃ t, l = p ++ t := by
  induction p generalizing l with
  | nil => simp [startsWithL]
  | cons a as ih =>
    cases l with
    | nil =>
      simp only [startsWithL, Bool.false_eq_true, false_iff]
      rintro ⟨t, ht⟩
      exact absurd ht (by simp)
    | cons b bs =>
      simp only [startsWithL, Bool.and_eq_true, beq_iff_eq, ih]
      constructor
      · rintro ⟨rfl, t, rfl⟩
        exact ⟨t, rfl⟩
      · rintro ⟨t, ht⟩
        rw [List.cons_append] at ht
        cases ht
        exact ⟨rfl, t, rfl⟩

theorem containsSub_iff {p l : List Char} :
    containsSub p l = true ↔ occursL p l := by
  induction l with
  | nil =>
    simp only [containsSub, startsWithL_iff, occursL]
    constructor
    · rintro ⟨t, ht⟩
      exact ⟨[], t, ht⟩
    · rintro ⟨s, t, ht⟩
      refine ⟨s ++ t, ?_⟩
      cases s with
      | nil => simpa using ht
      | cons x xs => exact absurd ht (by simp)
  | cons c cs ih =>
    simp only [containsSub, Bool.or_eq_true, startsWithL_iff, ih, occursL]
    constructor
    · rintro (⟨t, ht⟩ | ⟨s, t, ht⟩)
      · exact ⟨[], t, ht⟩
      · exact ⟨c :: s, t, by simp [ht]⟩
    · rintro ⟨s, t, ht⟩
      cases s with
      | nil => exact Or.inl ⟨t, by simpa using ht⟩
      | cons x xs =>
        rw [List.cons_append, List.cons_append] at ht
        cases ht
        exact Or.inr ⟨xs, t, rfl⟩

theorem occursL_cons {p cs : List Char} (c : Char) (h : occursL p cs) :
    occursL p (c :: cs) := by
  obtain ⟨s, t, rfl⟩ := h
  exact ⟨c :: s, t, rfl⟩

/-- An occurrence of a pattern beginning with two fixed characters yields
an occurrence of those two characters. -/
theorem occursL_two {x y : Char} {ps l : List Char}
    (h : occursL (x :: y :: ps) l) : occursL [x, y] l := by
  obtain ⟨s, t, rfl⟩ := h
  exact ⟨s, ps ++ t, by simp⟩

/-- Case-insensitive match of pattern `ps` against the front of a text;
on success returns the rest of the text. -/
def stripCI : List Char → List Char → Option (List Char)
  | [], l => some l
  | _ :: _, [] => none
  | p :: ps, c :: cs => if lowerChar p = lowerChar c then stripCI ps cs else none

theorem stripCI_lower {ps l rest : List Char} (h : stripCI ps l = some rest) :
    lowerL l = lowerL ps ++ lowerL rest := by
  induction ps generalizing l with
  | nil =>
    simp only [stripCI, Option.some.injEq] at h
    subst h
    simp [lowerL]
  | cons p ps ih =>
    cases l with
    | nil => exact absurd h (by simp [stripCI])
    | cons c cs =>
      simp only [stripCI] at h
      split at h
      · next heq =>
        have := ih h
        simp only [lowerL, List.map_cons] at this ⊢
        rw [this, heq]
        simp
      · exact absurd h (by simp)

theorem stripCI_all {ps l : List Char} (h : lowerL ps = lowerL l) :
    stripCI ps l = some [] := by
  induction ps generalizing l with
  | nil =>
    cases l with
    | nil => rfl
    | cons c cs => exact absurd h (by simp [lowerL])
  | cons p ps ih =>
    cases l with
    | nil => exact absurd h (by simp [lowerL])
    | cons c cs =>
      simp only [lowerL, List.map_cons, List.cons.injEq] at h
      simp only [stripCI, h.1, if_true]
      exact ih h.2

/-! ## The JavaScript regex/replace fragment used by `replacePlaceholders`

The source replaces via the regex literals `/\{\{name\}\}/gi` (likewise
`title`, `date`) and via `new RegExp("\\{\\{" + key + "\\}\\}", "gi")` for
each custom-field key, always through `String.replace` with a string
replacement.  A pattern is modelled as an ordered list of alternatives
(a `|` in the injected key splits the whole pattern, escaped braces
included), each alternative a sequence of single-character atoms: a
literal character, matched ASCII-case-insensitively as the `i` flag
does on ASCII, or the `.` wildcard.  Custom keys using regex syntax
outside this fragment (quantifiers, classes, groups, escapes, anchors)
or non-ASCII case folding are not modelled; the amended claims below
therefore restrict custom keys to `plainKey` — ASCII and free of all
metacharacters — where the constructed pattern is exactly the literal
token.  The `$`-substitution of the string replacement is modelled in
`expandRepl`. -/

/-- One single-character pattern atom. -/
inductive Atom where
  | lit (c : Char)
  | dot
deriving DecidableEq, Repr

/-- Line terminators, which the JavaScript `.` wildcard does not match. -/
def isLineTerm (c : Char) : Bool :=
  c = '\n' || c = '\r' || c.toNat = 0x2028 || c.toNat = 0x2029

/-- Match a sequence of atoms against the front of the text; on success
return the consumed characters and the rest. -/
def matchSeq : List Atom → List Char → Option (List Char × List Char)
  | [], l => some ([], l)
  | _ :: _, [] => none
  | .lit p :: ps, c :: cs =>
    if lowerChar p = lowerChar c then
      (matchSeq ps cs).map fun pr => (c :: pr.1, pr.2)
    else none
  | .dot :: ps, c :: cs =>
    if isLineTerm c then none
    else (matchSeq ps cs).map fun pr => (c :: pr.1, pr.2)

/-- Try the alternatives in order (JavaScript alternation is ordered:
the first alternative that matches at a position wins). -/
def matchAlts : List (List Atom) → List Char → Option (List Char × List Char)
  | [], _ => none
  | a :: as, l =>
    match matchSeq a l with
    | some r => some r
    | none => matchAlts as l

/-- The `$`-substitution a string replacement undergoes (ES
`GetSubstitution`) for a group-free pattern: `$$` yields a dollar, `$&`
the matched text, a dollar before a backquote the text before the
match, `$\x27` the text after it; every other `$…` — in particular
group references, which cannot resolve because these patterns have no
groups — stays literal. -/
def expandRepl (m pre post : List Char) : List Char → List Char
  | [] => []
  | c :: rest =>
    if c = '$' then
      match rest with
      | [] => ['$']
      | d :: rest2 =>
        if d = '$' then '$' :: expandRepl m pre post rest2
        else if d = '&' then m ++ expandRepl m pre post rest2
        else if d = Char.ofNat 96 then pre ++ expandRepl m pre post rest2
        else if d = Char.ofNat 39 then post ++ expandRepl m pre post rest2
        else '$' :: d :: expandRepl m pre post rest2
    else c :: expandRepl m pre post rest

/-- Fuel-driven scan of `String.replace` with a `g` regex: positions
left to right, replacement inserted for each match and never rescanned,
a zero-length match inserts the replacement and advances one character
(and may also fire after the last character); `pre` accumulates the
scanned prefix for `$`-substitution. -/
def replScan (alts : List (List Atom)) (repl : List Char) :
    Nat → List Char → List Char → List Char
  | _, pre, [] =>
    match matchAlts alts [] with
    | some (m, _) => expandRepl m pre [] repl
    | none => []
  | 0, _, c :: cs => c :: cs
  | n + 1, pre, c :: cs =>
    match matchAlts alts (c :: cs) with
    | some ([], _) =>
      expandRepl [] pre (c :: cs) repl ++ c :: replScan alts repl n (pre ++ [c]) cs
    | some (m, rest) =>
      expandRepl m pre rest repl ++ replScan alts repl n (pre ++ m) rest
    | none => c :: replScan alts repl n (pre ++ [c]) cs

/-- One full `text.replace(pattern, repl)` call. -/
def replaceTok (alts : List (List Atom)) (repl l : List Char) : List Char :=
  replScan alts repl l.length [] l

/-- A metacharacter-free pattern: one alternative of literal atoms. -/
def litAlts (ps : List Char) : List (List Atom) := [ps.map Atom.lit]

/-- Interpretation of one injected-key character inside the modelled
fragment: `.` is the wildcard, everything else is literal. -/
def atomOf (c : Char) : Atom := if c = '.' then Atom.dot else Atom.lit c

/-- Split the injected key at top-level `|`. -/
def splitAlt : List Char → List (List Char)
  | [] => [[]]
  | c :: cs =>
    if c = '|' then [] :: splitAlt cs
    else
      match splitAlt cs with
      | [] => [[c]]
      | p :: ps => (c :: p) :: ps

/-- The trailing alternatives of the custom pattern: every part stands
alone except the last, which carries the closing escaped braces. -/
def midLast : List (List Char) → List (List Atom)
  | [] => []
  | [p] => [p.map atomOf ++ [Atom.lit '}', Atom.lit '}']]
  | p :: ps => p.map atomOf :: midLast ps

/-- The pattern of `new RegExp("\\{\\{" + key + "\\}\\}", "gi")`: the
escaped braces attach to the first and last alternative of the injected
key. -/
def customAlts (k : String) : List (List Atom) :=
  match splitAlt k.data with
  | [] => []
  | [p] =>
    [Atom.lit '{' :: Atom.lit '{' :: (p.map atomOf ++ [Atom.lit '}', Atom.lit '}'])]
  | p :: ps => (Atom.lit '{' :: Atom.lit '{' :: p.map atomOf) :: midLast ps

/-- An ES `SyntaxCharacter` (plus `.`): a key containing none of these
is injected verbatim as a literal pattern. -/
def isRegexMeta (c : Char) : Bool :=
  c = '^' || c = '$' || c = '\\' || c = '.' || c = '*' || c = '+' || c = '?' ||
    c = '(' || c = ')' || c = '[' || c = ']' || c = '{' || c = '}' || c = '|'

/-- A custom-field key inside the faithfully modelled region: ASCII and
free of regex metacharacters, so that its constructed `gi` pattern is
exactly the literal `\{\{key\}\}` token. -/
def plainKey (k : String) : Bool :=
  k.data.all fun c => c.toNat < 128 && !(isRegexMeta c)

/-! ### The literal-pattern fragment of the engine -/

theorem matchSeq_lit_inv {ps : List Char} :
    ∀ {l m rest : List Char}, matchSeq (ps.map Atom.lit) l = some (m, rest) →
      stripCI ps l = some rest := by
  induction ps with
  | nil =>
    intro l m rest h
    simp only [List.map_nil, matchSeq, Option.some.injEq, Prod.mk.injEq] at h
    rw [stripCI, h.2]
  | cons p ps ih =>
    intro l m rest h
    cases l with
    | nil => exact absurd h (by simp [matchSeq])
    | cons c cs =>
      simp only [List.map_cons, matchSeq] at h
      split at h
      · next heq =>
        cases hms : matchSeq (ps.map Atom.lit) cs with
        | none => rw [hms] at h; exact absurd h (by simp)
        | some pr =>
          rw [hms, Option.map_some'] at h
          cases h
          simp only [stripCI, heq, if_true]
          exact ih hms
      · exact absurd h (by simp)

theorem matchSeq_lit_of_stripCI {ps : List Char} :
    ∀ {l rest : List Char}, stripCI ps l = some rest →
      ∃ m, matchSeq (ps.map Atom.lit) l = some (m, rest) ∧ l = m ++ rest ∧
        m.length = ps.length := by
  induction ps with
  | nil =>
    intro l rest h
    simp only [stripCI, Option.some.injEq] at h
    subst h
    exact ⟨[], by simp [matchSeq], rfl, rfl⟩
  | cons p ps ih =>
    intro l rest h
    cases l with
    | nil => exact absurd h (by simp [stripCI])
    | cons c cs =>
      simp only [stripCI] at h
      split at h
      · next heq =>
        obtain ⟨m, hm, hcs, hlen⟩ := ih h
        refine ⟨c :: m, ?_, by simp [hcs], by simp [hlen]⟩
        simp only [List.map_cons, matchSeq, heq, if_true, hm, Option.map_some']
      · exact absurd h (by simp)

theorem matchAlts_single {a : List Atom} {l : List Char} :
    matchAlts [a] l = matchSeq a l := by
  cases h : matchSeq a l <;> simp [matchAlts, h]

theorem matchAlts_lit_nil {ps : List Char} (hne : ps ≠ []) :
    matchAlts (litAlts ps) [] = none := by
  cases ps with
  | nil => exact absurd rfl hne
  | cons p ps => simp [litAlts, matchAlts, matchSeq]

theorem replScan_nil_none {alts : List (List Atom)} {repl : List Char}
    (n : Nat) (pre : List Char) (h : matchAlts alts [] = none) :
    replScan alts repl n pre [] = [] := by
  cases n <;> simp [replScan, h]

theorem replScan_cons_none {alts : List (List Atom)} {repl : List Char}
    {n : Nat} {pre : List Char} {c : Char} {cs : List Char}
    (h : matchAlts alts (c :: cs) = none) :
    replScan alts repl (n + 1) pre (c :: cs) =
      c :: replScan alts repl n (pre ++ [c]) cs := by
  simp [replScan, h]

theorem replScan_cons_matched {alts : List (List Atom)} {repl : List Char}
    {n : Nat} {pre : List Char} {c m0 : Char} {cs m1 rest : List Char}
    (h : matchAlts alts (c :: cs) = some (m0 :: m1, rest)) :
    replScan alts repl (n + 1) pre (c :: cs) =
      expandRepl (m0 :: m1) pre rest repl ++
        replScan alts repl n (pre ++ (m0 :: m1)) rest := by
  simp [replScan, h]

/-- `$`-free replacements are inserted verbatim. -/
theorem expandRepl_const (m pre post : List Char) {repl : List Char}
    (h : '$' ∉ repl) : expandRepl m pre post repl = repl := by
  induction repl with
  | nil => rfl
  | cons c rest ih =>
    have hc : ¬ c = '$' := fun hcc => h (by simp [hcc])
    rw [expandRepl.eq_def]
    simp only [if_neg hc]
    rw [ih fun hr => h (by simp [hr])]

/-- A literal pattern that never occurs (case-insensitively) in the text
leaves the whole scan unchanged, for any fuel and prefix. -/
theorem replScan_lit_id {ps : List Char} (repl : List Char) (hne : ps ≠ [])
    {l : List Char} (h : ¬ occursL (lowerL ps) (lowerL l)) :
    ∀ (n : Nat) (pre : List Char), replScan (litAlts ps) repl n pre l = l := by
  induction l with
  | nil => intro n pre; exact replScan_nil_none n pre (matchAlts_lit_nil hne)
  | cons c cs ih =>
    intro n pre
    have hnone : matchAlts (litAlts ps) (c :: cs) = none := by
      rw [show litAlts ps = [ps.map Atom.lit] from rfl, matchAlts_single]
      cases hms : matchSeq (ps.map Atom.lit) (c :: cs) with
      | none => rfl
      | some pr =>
        obtain ⟨m1, r1⟩ := pr
        have hstrip : stripCI ps (c :: cs) = some r1 := matchSeq_lit_inv hms
        exact absurd ⟨[], lowerL r1, by simpa using stripCI_lower hstrip⟩ h
    cases n with
    | zero => rfl
    | succ n =>
      rw [replScan_cons_none hnone]
      have htail : ¬ occursL (lowerL ps) (lowerL cs) := by
        intro hocc
        exact h (by simpa [lowerL] using occursL_cons (lowerChar c) hocc)
      rw [ih htail n (pre ++ [c])]

theorem replaceTok_lit_id {ps repl l : List Char} (hne : ps ≠ [])
    (h : ¬ occursL (lowerL ps) (lowerL l)) : replaceTok (litAlts ps) repl l = l :=
  replScan_lit_id repl hne h l.length []

/-- A text that case-insensitively equals a literal pattern is replaced
by the (`$`-free) replacement, whole. -/
theorem replaceTok_lit_whole {ps repl l : List Char} (h : lowerL ps = lowerL l)
    (hne : l ≠ []) (hd : '$' ∉ repl) : replaceTok (litAlts ps) repl l = repl := by
  have hpne : ps ≠ [] := by
    intro hp
    rw [hp] at h
    cases l with
    | nil => exact hne rfl
    | cons c cs => exact absurd h.symm (by simp [lowerL])
  obtain ⟨m, hm, hsplit, hlen⟩ := matchSeq_lit_of_stripCI (stripCI_all h)
  have hml : m = l := by simpa using hsplit.symm
  subst hml
  cases m with
  | nil => exact absurd rfl hne
  | cons c cs =>
    have hma : matchAlts (litAlts ps) (c :: cs) = some (c :: cs, []) := by
      rw [show litAlts ps = [ps.map Atom.lit] from rfl, matchAlts_single, hm]
    show replScan (litAlts ps) repl (c :: cs).length [] (c :: cs) = repl
    rw [List.length_cons, replScan_cons_matched hma,
      replScan_nil_none _ _ (matchAlts_lit_nil hpne),
      expandRepl_const _ _ _ hd, List.append_nil]

/-- Absence of an (exact) `{{` pair survives lower-casing. -/
theorem containsSub_open_lowerL {l : List Char}
    (h : containsSub ['{', '{'] l = false) :
    containsSub ['{', '{'] (lowerL l) = false := by
  by_contra hne
  have htrue : containsSub ['{', '{'] (lowerL l) = true := by
    cases hx : containsSub ['{', '{'] (lowerL l) with
    | false => exact absurd hx hne
    | true => rfl
  obtain ⟨s, t, hst⟩ := containsSub_iff.1 htrue
  rw [lowerL, List.map_eq_append_iff] at hst
  obtain ⟨l₁, l₂, rfl, h₁, h₂⟩ := hst
  rw [List.map_eq_append_iff] at h₁
  obtain ⟨l₀, m, rfl, h₀, hm⟩ := h₁
  cases m with
  | nil => exact absurd hm (by simp)
  | cons x xs =>
    cases xs with
    | nil => exact absurd hm (by simp)
    | cons y ys =>
      cases ys with
      | nil =>
        simp only [List.map_cons, List.map_nil, List.cons.injEq, and_true] at hm
        have hx : x = '{' := lowerChar_openBrace hm.1
        have hy : y = '{' := lowerChar_openBrace hm.2
        subst hx; subst hy
        have hocc : occursL ['{', '{'] ((l₀ ++ ['{', '{']) ++ l₂) :=
          ⟨l₀, l₂, by simp⟩
        rw [containsSub_iff.2 hocc] at h
        exact absurd h (by simp)
      | cons z zs => exact absurd hm (by simp)

/-! ## Recipient data model and the placeholder engine -/

/-- Modelled from the spec: the `BatchRecipient` record of the (absent)
`@/types/batch` module — `{ name, title?, date?, customFields? }` with
`title`/`date` optional strings and `customFields` a string→string
mapping.  Missing optional fields are represented by `""` / `[]`, which
is how every consumer in `batch-generator.ts` treats them (`x || ""`,
`customFields || {}`); the list keeps `Object.entries` order. -/
structure BatchRecipient where
  name : String
  title : String
  date : String
  customFields : List (String × String)
deriving DecidableEq, Repr

/-- The literal `{{` opener common to every replacement pattern. -/
def openTok : List Char := ['{', '{']

/-- The `/\{\{name\}\}/gi` pattern of `replacePlaceholders`. -/
def nameTok : List Char := ['{', '{', 'n', 'a', 'm', 'e', '}', '}']

/-- The `/\{\{title\}\}/gi` pattern of `replacePlaceholders`. -/
def titleTok : List Char := ['{', '{', 't', 'i', 't', 'l', 'e', '}', '}']

/-- The `/\{\{date\}\}/gi` pattern of `replacePlaceholders`. -/
def dateTok : List Char := ['{', '{', 'd', 'a', 't', 'e', '}', '}']

/-- The literal token text `{{k}}` (as it appears in a template
string); also the shape the custom pattern takes when the key is free
of metacharacters. -/
def customTok (k : String) : List Char := '{' :: '{' :: (k.data ++ ['}', '}'])

/-- `replacePlaceholders` (batch-generator.ts lines 115–132): replace
`{{name}}`, then `{{title}}`, then `{{date}}` (fixed literal regexes),
then each custom-field pattern in mapping order, each replacement
acting on the result of the previous one. -/
def substituteL (text : List Char) (r : BatchRecipient) : List Char :=
  let s1 := replaceTok (litAlts nameTok) r.name.data text
  let s2 := replaceTok (litAlts titleTok) r.title.data s1
  let s3 := replaceTok (litAlts dateTok) r.date.data s2
  r.customFields.foldl (fun acc kv => replaceTok (customAlts kv.1) kv.2.data acc) s3

/-- String-level wrapper of `substituteL`. -/
def substitute (text : String) (r : BatchRecipient) : String :=
  String.mk (substituteL text.data r)

/-- Any literal pattern starting with `{{` leaves a text without a `{{`
pair unchanged. -/
theorem replaceTok_open_id {ps repl l : List Char}
    (h : containsSub openTok l = false) :
    replaceTok (litAlts ('{' :: '{' :: ps)) repl l = l := by
  apply replaceTok_lit_id (by simp)
  intro hocc
  have hlow : lowerL ('{' :: '{' :: ps) = '{' :: '{' :: lowerL ps := by
    simp [lowerL, show lowerChar '{' = '{' from by decide]
  rw [hlow] at hocc
  have h2 : occursL ['{', '{'] (lowerL l) := occursL_two hocc
  have h3 : containsSub ['{', '{'] (lowerL l) = false := containsSub_open_lowerL h
  rw [containsSub_iff.2 h2] at h3
  exact absurd h3 (by simp)

/-- A literal pattern whose lower-casing does not occur in the
lower-cased text (checked by `containsSub`) changes nothing. -/
theorem replaceTok_lit_id_contains (ps : List Char) {repl l : List Char}
    (hne : ps ≠ []) (h : containsSub (lowerL ps) (lowerL l) = false) :
    replaceTok (litAlts ps) repl l = l := by
  apply replaceTok_lit_id hne
  intro hocc
  rw [containsSub_iff.2 hocc] at h
  exact absurd h (by simp)

/-- A `|`-free key splits into a single alternative. -/
theorem splitAlt_no_bar {l : List Char} (h : '|' ∉ l) : splitAlt l = [l] := by
  induction l with
  | nil => rfl
  | cons c cs ih =>
    have hc : ¬ c = '|' := fun hcc => h (by simp [hcc])
    have hcs : '|' ∉ cs := fun hm => h (by simp [hm])
    simp only [splitAlt, if_neg hc, ih hcs]

/-- A `.`-free key consists of literal atoms. -/
theorem map_atomOf_no_dot {l : List Char} (h : '.' ∉ l) :
    l.map atomOf = l.map Atom.lit := by
  induction l with
  | nil => rfl
  | cons c cs ih =>
    have hc : ¬ c = '.' := fun hcc => h (by simp [hcc])
    simp only [List.map_cons, atomOf, if_neg hc,
      ih fun hm => h (by simp [hm])]

/-- For a plain key the constructed pattern is exactly the literal
token. -/
theorem customAlts_plain {k : String} (h : plainKey k = true) :
    customAlts k = litAlts ('{' :: '{' :: (k.data ++ ['}', '}'])) := by
  have hbar : '|' ∉ k.data := by
    intro hm
    exact absurd (List.all_eq_true.1 h _ hm) (by decide)
  have hdot : '.' ∉ k.data := by
    intro hm
    exact absurd (List.all_eq_true.1 h _ hm) (by decide)
  rw [customAlts, splitAlt_no_bar hbar]
  simp [map_atomOf_no_dot hdot, litAlts]

/-- The custom-field fold leaves a text unchanged as soon as each single
custom replacement does. -/
theorem foldl_replaceTok_id {cfs : List (String × String)} {l : List Char}
    (h : ∀ kv ∈ cfs, replaceTok (customAlts kv.1) kv.2.data l = l) :
    cfs.foldl (fun acc kv => replaceTok (customAlts kv.1) kv.2.data acc) l = l := by
  induction cfs with
  | nil => rfl
  | cons kv cfs ih =>
    simp only [List.foldl_cons, h kv (by simp)]
    exact ih fun kv' hm => h kv' (by simp [hm])

/-- A text without a `{{` pair is left unchanged by the whole
substitution pipeline, provided the custom keys are plain (a
metacharacter key can match brace-free text, see the C3
counterexample). -/
theorem substituteL_id {l : List Char} {r : BatchRecipient}
    (hkeys : ∀ kv ∈ r.customFields, plainKey kv.1 = true)
    (h : containsSub openTok l = false) : substituteL l r = l := by
  unfold substituteL
  simp only
  rw [show nameTok = '{' :: '{' :: ['n', 'a', 'm', 'e', '}', '}'] from rfl,
    replaceTok_open_id h,
    show titleTok = '{' :: '{' :: ['t', 'i', 't', 'l', 'e', '}', '}'] from rfl,
    replaceTok_open_id h,
    show dateTok = '{' :: '{' :: ['d', 'a', 't', 'e', '}', '}'] from rfl,
    replaceTok_open_id h]
  exact foldl_replaceTok_id fun kv hkv => by
    rw [customAlts_plain (hkeys kv hkv)]
    exact replaceTok_open_id h

/-! ## Disjointness of `{{…}}` patterns over distinct keys -/

theorem append_closeTok_ne {kl : List Char} (hbr : '}' ∉ kl) :
    ∀ {q : List Char}, q ≠ kl →
      ∀ t, (q ++ ['}', '}']) ++ t ≠ kl ++ ['}', '}'] := by
  induction kl with
  | nil =>
    intro q hne t heq
    cases q with
    | nil => exact hne rfl
    | cons a q' =>
      have hlen := congrArg List.length heq
      simp [List.length_append] at hlen
      omega
  | cons d kl' ih =>
    intro q hne t heq
    cases q with
    | nil =>
      simp only [List.nil_append, List.cons_append, List.cons.injEq] at heq
      exact hbr (by simp [heq.1.symm])
    | cons a q' =>
      simp only [List.cons_append, List.cons.injEq] at heq
      obtain ⟨rfl, heq'⟩ := heq
      have hbr' : '}' ∉ kl' := fun hm => hbr (by simp [hm])
      have hne' : q' ≠ kl' := fun hq => hne (by rw [hq])
      exact ih hbr' hne' t heq'

/-- Core disjointness: the pattern `{{q}}` never occurs (even
case-insensitively, both sides already lower-cased) inside the single
token `{{kl}}` when `kl` is brace-free and `q ≠ kl`. -/
theorem tok_no_occur {q kl : List Char} (h1 : '{' ∉ kl) (h2 : '}' ∉ kl)
    (hne : q ≠ kl) :
    ¬ occursL ('{' :: '{' :: (q ++ ['}', '}']))
      ('{' :: '{' :: (kl ++ ['}', '}'])) := by
  rintro ⟨s, t, heq⟩
  have hmem : '{' ∉ kl ++ ['}', '}'] := by
    intro hm
    rcases List.mem_append.1 hm with hm | hm
    · exact h1 hm
    · simp at hm
  cases s with
  | nil =>
    simp only [List.nil_append, List.cons_append, List.cons.injEq] at heq
    exact append_closeTok_ne h2 hne t heq.2.2.symm
  | cons a s' =>
    simp only [List.cons_append, List.cons.injEq] at heq
    obtain ⟨rfl, heq⟩ := heq
    cases s' with
    | nil =>
      simp only [List.nil_append, List.cons_append, List.cons.injEq] at heq
      exact hmem (by rw [heq.2]; simp)
    | cons b s'' =>
      simp only [List.cons_append, List.cons.injEq] at heq
      obtain ⟨rfl, heq⟩ := heq
      apply hmem
      rw [heq]
      simp

/-- Lower-casing distributes over a `{{…}}`-shaped pattern. -/
theorem lowerL_tok (mid : List Char) :
    lowerL ('{' :: '{' :: (mid ++ ['}', '}'])) =
      '{' :: '{' :: (lowerL mid ++ ['}', '}']) := by
  simp [lowerL, List.map_append,
    show lowerChar '{' = '{' from by decide,
    show lowerChar '}' = '}' from by decide]

/-- Lower-casing preserves brace-freeness. -/
theorem lowerL_no_brace {l : List Char} (h : ∀ c ∈ l, c ≠ '{' ∧ c ≠ '}') :
    '{' ∉ lowerL l ∧ '}' ∉ lowerL l := by
  constructor
  · intro hm
    obtain ⟨c, hc, hlc⟩ := List.mem_map.1 hm
    exact (h c hc).1 (lowerChar_openBrace hlc)
  · intro hm
    obtain ⟨c, hc, hlc⟩ := List.mem_map.1 hm
    exact (h c hc).2 (lowerChar_closeBrace hlc)

/-- A literal `{{mid}}` pattern whose lower-cased key differs from the
(brace-free) key `k` leaves the literal token `{{k}}` unchanged. -/
theorem replaceTok_tok_at_tok {mid repl : List Char} {k : String}
    (hbr : ∀ c ∈ k.data, c ≠ '{' ∧ c ≠ '}')
    (hne : lowerL mid ≠ lowerL k.data) :
    replaceTok (litAlts ('{' :: '{' :: (mid ++ ['}', '}']))) repl (customTok k) =
      customTok k := by
  apply replaceTok_lit_id (by simp)
  rw [show customTok k = '{' :: '{' :: (k.data ++ ['}', '}']) from rfl,
    lowerL_tok, lowerL_tok]
  obtain ⟨hO, hC⟩ := lowerL_no_brace hbr
  exact tok_no_occur hO hC hne

/-! ## Filename sanitisation and the archive (`JSZip`) model -/

/-- A character kept by the `/[^a-z0-9]/gi` source class: ASCII letters
(either case, because of the `i` flag) and digits. -/
def keepChar (c : Char) : Bool :=
  ('a' ≤ c && c ≤ 'z') || ('A' ≤ c && c ≤ 'Z') || ('0' ≤ c && c ≤ '9')

/-- `name.replace(/[^a-z0-9]/gi, "_")`. -/
def underscoreMap (l : List Char) : List Char :=
  l.map fun c => if keepChar c then c else '_'

/-- Tail worker for collapsing runs of underscores; `prev` is the last
character already emitted. -/
def collapseAux : Char → List Char → List Char
  | _, [] => []
  | prev, c :: cs =>
    if prev == '_' && c == '_' then collapseAux prev cs
    else c :: collapseAux c cs

/-- `.replace(/_+/g, "_")`: collapse every run of underscores to one. -/
def collapseU : List Char → List Char
  | [] => []
  | c :: cs => c :: collapseAux c cs

/-- One leading underscore removed (half of `.replace(/^_|_$/g, "")`). -/
def dropLeadU : List Char → List Char
  | '_' :: cs => cs
  | l => l

/-- One trailing underscore removed (other half of `/^_|_$/g`). -/
def dropTrailU (l : List Char) : List Char := (dropLeadU l.reverse).reverse

/-- `sanitizeFilename` (batch-generator.ts lines 220–226): non-alphanumerics
to `_`, collapse `_` runs, strip a leading/trailing `_`, lower-case. -/
def sanitizeFilename (s : String) : String :=
  String.mk
    ((dropTrailU (dropLeadU (collapseU (underscoreMap s.data)))).map lowerChar)

/-- The archive entry name `certificate_<sanitized>.png` for a recipient. -/
def certName (r : BatchRecipient) : String :=
  "certificate_" ++ sanitizeFilename r.name ++ ".png"

/-- `zip.file(name, blob)`: replace the entry of the same name if present,
otherwise append a new entry. -/
def zipFile {α : Type} (entries : List (String × α)) (n : String) (v : α) :
    List (String × α) :=
  if entries.any fun e => e.1 == n then
    entries.map fun e => if e.1 = n then (n, v) else e
  else entries ++ [(n, v)]

/-- Archive contents produced by the per-recipient loop of
`generateBatch` on the success path; `render` abstracts the encoded
frame stored for each recipient. -/
def batchEntries {α : Type} (render : BatchRecipient → α)
    (rs : List BatchRecipient) : List (String × α) :=
  rs.foldl (fun acc r => zipFile acc (certName r) (render r)) []

/-! ## Progress events and run outcomes of `generateBatch` -/

/-- The `status` field of `BatchProgress`.  Modelled from the spec:
`status ∈ {pending, processing, complete, error}` (the `@/types/batch`
module is not part of the sources). -/
inductive BatchStatus where
  | pending
  | processing
  | complete
  | error
deriving DecidableEq, Repr

/-- Modelled from the spec: the `BatchProgress` record of the (absent)
`@/types/batch` module — `{ total, current, currentName?, status,
error? }`. -/
structure BatchProgress where
  total : Nat
  current : Nat
  currentName : Option String
  status : BatchStatus
  error : Option String
deriving DecidableEq, Repr

/-- Where one `generateBatch` run can first fail, abstracting the
environment (image loading, canvas rendering/encoding, `JSZip`
generation); `msg` carries the message of the caught error as the
`catch` block computes it. -/
inductive BatchOutcome where
  | success
  | loadFailure (src : String)
  | recipientFailure (i : Nat) (msg : String)
  | archiveFailure (msg : String)
deriving DecidableEq, Repr

/-- A `recipientFailure` can only happen at an index the loop reaches. -/
def validOutcome (rs : List BatchRecipient) : BatchOutcome → Prop
  | .recipientFailure i _ => i < rs.length
  | _ => True

/-- The error message the `catch` block stores and re-raises. -/
def BatchOutcome.message : BatchOutcome → Option String
  | .success => none
  | .loadFailure src => some ("Failed to load image: " ++ src)
  | .recipientFailure _ m => some m
  | .archiveFailure m => some m

/-- The snapshot emitted before the `try` block. -/
def initEvent (N : Nat) : BatchProgress := ⟨N, 0, none, .processing, none⟩

/-- The snapshot emitted at the top of loop iteration `i`. -/
def loopEvent (N i : Nat) (nm : String) : BatchProgress :=
  ⟨N, i, some nm, .processing, none⟩

/-- All per-iteration snapshots for the processed part of the list. -/
def loopEvents (N : Nat) (rs : List BatchRecipient) : List BatchProgress :=
  rs.enum.map fun p => loopEvent N p.1 p.2.name

/-- `currentName` retains the name of the last processed recipient. -/
def lastNameOf (rs : List BatchRecipient) : Option String :=
  (rs.getLast?).map fun r => r.name

/-- The name of the recipient at index `i`, if any. -/
def nameAt (rs : List BatchRecipient) (i : Nat) : Option String :=
  (rs.get? i).map fun r => r.name

/-- The snapshot emitted after a successful loop. -/
def completeEvent (rs : List BatchRecipient) : BatchProgress :=
  ⟨rs.length, rs.length, lastNameOf rs, .complete, none⟩

/-- The snapshot emitted by the `catch` block: status and error are set,
`current`/`currentName` keep whatever value they had. -/
def errorEvent (N cur : Nat) (nm : Option String) (m : String) : BatchProgress :=
  ⟨N, cur, nm, .error, some m⟩

/-- The full sequence of progress snapshots of one `generateBatch` run
(batch-generator.ts lines 247–349): the initial event, one event per
recipient reached, then `complete` — followed, when `zip.generateAsync`
or the download step fails, by a final `error` event — or the `error`
event of the `catch` block at the point of failure. -/
def batchEvents (rs : List BatchRecipient) : BatchOutcome → List BatchProgress
  | .success =>
    initEvent rs.length :: (loopEvents rs.length rs ++ [completeEvent rs])
  | .loadFailure src =>
    [initEvent rs.length,
      errorEvent rs.length 0 none ("Failed to load image: " ++ src)]
  | .recipientFailure i m =>
    initEvent rs.length ::
      (loopEvents rs.length (rs.take (i + 1)) ++
        [errorEvent rs.length i (nameAt rs i) m])
  | .archiveFailure m =>
    initEvent rs.length ::
      (loopEvents rs.length rs ++
        [completeEvent rs,
          errorEvent rs.length rs.length (lastNameOf rs) m])

/-- What `generateBatch` hands back: the archive on success, the
re-raised error otherwise. -/
def batchResult {α : Type} (render : BatchRecipient → α)
    (rs : List BatchRecipient) : BatchOutcome → Except String (List (String × α))
  | .success => Except.ok (batchEntries render rs)
  | .loadFailure src => Except.error ("Failed to load image: " ++ src)
  | .recipientFailure _ m => Except.error m
  | .archiveFailure m => Except.error m

/-! ## Recipient loader (`parseRecipientsFile`) -/

/-- One raw record of the uploaded JSON, after `JSON.parse`: each field
may be absent (`none` also stands for a non-string value, which the
loader treats the same way). -/
structure RawRecipient where
  name : Option String
  title : Option String
  date : Option String
  customFields : Option (List (String × String))
deriving DecidableEq, Repr

/-- `recipient.name && typeof recipient.name === "string"`: present and
non-empty. -/
def validName (r : RawRecipient) : Bool := !(r.name.getD "" == "")

/-- The defaulting applied to a valid record: `title || ""`,
`date || ""`, `customFields || {}`. -/
def toRecipient (r : RawRecipient) : BatchRecipient :=
  ⟨r.name.getD "", r.title.getD "", r.date.getD "", r.customFields.getD []⟩

/-- The error text thrown for an invalid record. -/
def missingNameMsg (i : Nat) : String :=
  "Recipient at index " ++ Nat.repr i ++ " is missing a valid \"name\" field"

/-- The in-order mapping of `data.recipients`; a thrown error aborts the
whole `map`, so the first invalid record wins. -/
def parseRows : Nat → List RawRecipient → Except String (List BatchRecipient)
  | _, [] => Except.ok []
  | i, r :: rest =>
    if validName r then
      match parseRows (i + 1) rest with
      | Except.ok bs => Except.ok (toRecipient r :: bs)
      | Except.error m => Except.error m
    else Except.error (missingNameMsg i)

/-- `parseRecipientsFile` (batch-generator.ts lines 57–110) after
`JSON.parse`: `none` models a document whose top level is not
`{ recipients: [...] }`; every failure is wrapped in
`Failed to parse JSON: …`. -/
def parseRecipientsFile (data : Option (List RawRecipient)) :
    Except String (List BatchRecipient) :=
  match data with
  | none =>
    Except.error
      ("Failed to parse JSON: " ++
        "Invalid JSON structure. Expected \x7b \"recipients\": [...] \x7d")
  | some rows =>
    match parseRows 0 rows with
    | Except.ok bs => Except.ok bs
    | Except.error m => Except.error ("Failed to parse JSON: " ++ m)

/-! ## Recipient validator (`validateRecipientData`) -/

/-- The chained-ternary resolution of a placeholder key against one
recipient: standard fields first, then the custom-field mapping. -/
def resolveValue (r : BatchRecipient) (k : String) : Option String :=
  if k = "name" then some r.name
  else if k = "title" then some r.title
  else if k = "date" then some r.date
  else List.lookup k r.customFields

/-- JavaScript falsiness of the resolved value: absent or empty. -/
def isFalsy (v : Option String) : Bool := v.getD "" == ""

/-- The pushed error text, naming the 1-based position, the name and the
missing key. -/
def missingFieldMsg (i : Nat) (r : BatchRecipient) (k : String) : String :=
  "Recipient " ++ Nat.repr (i + 1) ++ " (" ++ r.name ++ ") is missing field: " ++ k

/-- `validateRecipientData` (batch-generator.ts lines 414–445): nested
`forEach` over recipients and required keys, pushing one error per
falsy resolution; `valid` is `errors.length === 0`. -/
def validateRecipientData (rs : List BatchRecipient) (keys : List String) :
    Bool × List String :=
  let errors := rs.enum.foldl
    (fun acc p =>
      keys.foldl
        (fun acc2 k =>
          if isFalsy (resolveValue p.2 k) then acc2 ++ [missingFieldMsg p.1 p.2 k]
          else acc2)
        acc)
    []
  (errors.length == 0, errors)

/-- Spec-side description of the validator output (§4.3 of the spec):
for every recipient, for every required key, in order, one error per
falsy resolution. -/
def specErrors : Nat → List BatchRecipient → List String → List String
  | _, [], _ => []
  | i, r :: rest, keys =>
    (keys.filter fun k => isFalsy (resolveValue r k)).map (missingFieldMsg i r) ++
      specErrors (i + 1) rest keys

/-! ## Loader and validator lemmas -/

theorem parseRows_error (post : List RawRecipient) {bad : RawRecipient}
    (hbad : validName bad = false) :
    ∀ (pre : List RawRecipient) (i : Nat), (∀ r ∈ pre, validName r = true) →
      parseRows i (pre ++ bad :: post) =
        Except.error (missingNameMsg (i + pre.length)) := by
  intro pre
  induction pre with
  | nil =>
    intro i h
    simp [parseRows, hbad]
  | cons a pre' ih =>
    intro i h
    have ha : validName a = true := h a (by simp)
    simp only [List.cons_append, parseRows, ha, if_true, List.append_eq]
    rw [ih (i + 1) fun r hr => h r (by simp [hr])]
    have harith : i + 1 + pre'.length = i + (a :: pre').length := by
      simp [List.length_cons]
      omega
    rw [harith]

theorem parseRows_ok : ∀ (rows : List RawRecipient) (i : Nat),
    (∀ r ∈ rows, validName r = true) →
      parseRows i rows = Except.ok (rows.map toRecipient) := by
  intro rows
  induction rows with
  | nil => intro i _; simp [parseRows]
  | cons a rest ih =>
    intro i h
    simp only [parseRows, h a (by simp), if_true]
    rw [ih (i + 1) fun r hr => h r (by simp [hr])]
    simp

theorem keys_foldl_filter (keys : List String) (r : BatchRecipient) (i : Nat) :
    ∀ acc : List String,
      keys.foldl
        (fun acc2 k =>
          if isFalsy (resolveValue r k) then acc2 ++ [missingFieldMsg i r k]
          else acc2) acc =
        acc ++ (keys.filter fun k => isFalsy (resolveValue r k)).map
          (missingFieldMsg i r) := by
  induction keys with
  | nil => intro acc; simp
  | cons k ks ih =>
    intro acc
    simp only [List.foldl_cons, List.filter_cons]
    by_cases h : isFalsy (resolveValue r k)
    · rw [if_pos h, ih]
      simp [h]
    · rw [if_neg h, ih]
      simp [h]

theorem enumFrom_foldl_specErrors (keys : List String) :
    ∀ (rs : List BatchRecipient) (i : Nat) (acc : List String),
      (List.enumFrom i rs).foldl
        (fun acc p =>
          keys.foldl
            (fun acc2 k =>
              if isFalsy (resolveValue p.2 k) then
                acc2 ++ [missingFieldMsg p.1 p.2 k]
              else acc2) acc) acc =
        acc ++ specErrors i rs keys := by
  intro rs
  induction rs with
  | nil => intro i acc; simp [specErrors]
  | cons r rest ih =>
    intro i acc
    simp only [List.enumFrom, List.foldl_cons]
    rw [keys_foldl_filter, ih, specErrors]
    simp [List.append_assoc]

/-! ## Archive and progress-event lemmas -/

theorem batchEntries_fold_names {α : Type} (render : BatchRecipient → α) :
    ∀ (rs : List BatchRecipient) (acc : List (String × α)),
      (rs.map certName).Nodup →
      (∀ r ∈ rs, ∀ e ∈ acc, e.1 ≠ certName r) →
      (rs.foldl (fun acc r => zipFile acc (certName r) (render r)) acc).map
          Prod.fst =
        acc.map Prod.fst ++ rs.map certName := by
  intro rs
  induction rs with
  | nil => intro acc _ _; simp
  | cons r rest ih =>
    intro acc hnodup hdisj
    obtain ⟨hhead, htail⟩ :
        certName r ∉ rest.map certName ∧ (rest.map certName).Nodup := by
      have h2 := hnodup
      rw [List.map_cons, List.nodup_cons] at h2
      exact h2
    simp only [List.foldl_cons]
    have hnone : (acc.any fun e => e.1 == certName r) = false := by
      rw [List.any_eq_false]
      intro e he
      simp only [beq_iff_eq]
      exact hdisj r (by simp) e he
    have hzip : zipFile acc (certName r) (render r) =
        acc ++ [(certName r, render r)] := by
      simp [zipFile, hnone]
    rw [hzip, ih (acc ++ [(certName r, render r)]) htail]
    · simp
    · intro r' hr' e he
      rcases List.mem_append.1 he with he | he
      · exact hdisj r' (by simp [hr']) e he
      · have he' : e = (certName r, render r) := by simpa using he
        rw [he']
        intro hcc
        simp only at hcc
        exact hhead (by rw [hcc]; exact List.mem_map_of_mem certName hr')

theorem loopEvents_currents (N : Nat) (rs : List BatchRecipient) :
    (loopEvents N rs).map (fun e => e.current) = List.range rs.length := by
  rw [loopEvents, List.map_map]
  have hfn : ((fun e => e.current) ∘ fun p : Nat × BatchRecipient =>
      loopEvent N p.1 p.2.name) = Prod.fst := rfl
  rw [hfn, List.enum_map_fst]

/-- The shared shape of every run's `current` sequence: an initial `0`,
then `0, 1, …, M-1`, then a tail that itself is ordered and dominates
every loop index. -/
theorem chainLE_shape (M : Nat) (tail : List Nat)
    (h1 : List.Pairwise (· ≤ ·) tail)
    (h2 : ∀ x, x < M → ∀ y ∈ tail, x ≤ y) :
    List.Chain' (· ≤ ·) (0 :: (List.range M ++ tail)) := by
  apply List.Pairwise.chain'
  rw [List.pairwise_cons]
  refine ⟨fun a _ => Nat.zero_le a, ?_⟩
  rw [List.pairwise_append]
  refine ⟨(List.pairwise_lt_range M).imp fun h => Nat.le_of_lt h, h1, ?_⟩
  intro x hx y hy
  exact h2 x (List.mem_range.1 hx) y hy

/-! ## Stage lemmas for single-token texts -/

/-- A text that case-insensitively equals `{{name}}` becomes the `name`
field, provided that field has no `{{` and no `$` of its own and the
custom keys are plain. -/
theorem substitute_name_std (r : BatchRecipient) {t : List Char} (hne : t ≠ [])
    (hmatch : lowerL nameTok = lowerL t)
    (hkeys : ∀ kv ∈ r.customFields, plainKey kv.1 = true)
    (hn : containsSub openTok r.name.data = false)
    (hnd : '$' ∉ r.name.data) :
    substitute (String.mk t) r = r.name := by
  unfold substitute substituteL
  simp only
  rw [replaceTok_lit_whole hmatch hne hnd,
    show titleTok = '{' :: '{' :: ['t', 'i', 't', 'l', 'e', '}', '}'] from rfl,
    replaceTok_open_id hn,
    show dateTok = '{' :: '{' :: ['d', 'a', 't', 'e', '}', '}'] from rfl,
    replaceTok_open_id hn,
    foldl_replaceTok_id fun kv hkv => by
      rw [customAlts_plain (hkeys kv hkv)]
      exact replaceTok_open_id hn]

/-- A text that case-insensitively equals `{{title}}` becomes the
`title` field, under the same provisos for that field. -/
theorem substitute_title_std (r : BatchRecipient) {t : List Char} (hne : t ≠ [])
    (hmatch : lowerL titleTok = lowerL t)
    (hkeys : ∀ kv ∈ r.customFields, plainKey kv.1 = true)
    (ht : containsSub openTok r.title.data = false)
    (htd : '$' ∉ r.title.data) :
    substitute (String.mk t) r = r.title := by
  unfold substitute substituteL
  simp only
  rw [replaceTok_lit_id_contains nameTok (by decide) (by rw [← hmatch]; decide),
    replaceTok_lit_whole hmatch hne htd,
    show dateTok = '{' :: '{' :: ['d', 'a', 't', 'e', '}', '}'] from rfl,
    replaceTok_open_id ht,
    foldl_replaceTok_id fun kv hkv => by
      rw [customAlts_plain (hkeys kv hkv)]
      exact replaceTok_open_id ht]

/-- A text that case-insensitively equals `{{date}}` becomes the `date`
field, under the same provisos for that field. -/
theorem substitute_date_std (r : BatchRecipient) {t : List Char} (hne : t ≠ [])
    (hmatch : lowerL dateTok = lowerL t)
    (hkeys : ∀ kv ∈ r.customFields, plainKey kv.1 = true)
    (hd : containsSub openTok r.date.data = false)
    (hdd : '$' ∉ r.date.data) :
    substitute (String.mk t) r = r.date := by
  unfold substitute substituteL
  simp only
  rw [replaceTok_lit_id_contains nameTok (by decide) (by rw [← hmatch]; decide),
    replaceTok_lit_id_contains titleTok (by decide) (by rw [← hmatch]; decide),
    replaceTok_lit_whole hmatch hne hdd,
    foldl_replaceTok_id fun kv hkv => by
      rw [customAlts_plain (hkeys kv hkv)]
      exact replaceTok_open_id hd]

/-! ## Claims about the placeholder engine -/

/-- C3 counterexample: a custom key carrying a regex metacharacter
escapes the token grammar — key `x|y` builds `/\{\{x|y\}\}/gi`, whose
alternative `y\}\}` rewrites the token-free text `ay}}b` (it has no
`{{` at all) to `avb`. -/
theorem c3_counterexample :
    containsSub openTok (String.mk ['a', 'y', '}', '}', 'b']).data = false ∧
      substitute (String.mk ['a', 'y', '}', '}', 'b'])
          ⟨"Ann", "", "", [("x|y", "v")]⟩ = "avb" ∧
      ("avb" : String) ≠ String.mk ['a', 'y', '}', '}', 'b'] :=
  ⟨by decide, by decide, by decide⟩

/-- C3 (amended): for every recipient whose custom-field keys are plain
(ASCII, no regex metacharacters — so each constructed pattern is the
literal `\{\{key\}\}` token) and every text containing no `{{` token
opener — hence no `{{…}}` placeholder token — `substitute` returns the
text unchanged, whatever the field values. -/
theorem c3_no_token_identity (text : String) (r : BatchRecipient)
    (hkeys : ∀ kv ∈ r.customFields, plainKey kv.1 = true)
    (h : containsSub openTok text.data = false) : substitute text r = text := by
  unfold substitute
  rw [substituteL_id hkeys h]

/-- C3 witness: a concrete token-free text is unchanged for a concrete
recipient with custom fields. -/
theorem c3_no_token_identity_witness :
    substitute "Certificate of Achievement" ⟨"Ann", "T", "D", [("org", "ACME")]⟩ =
      "Certificate of Achievement" :=
  c3_no_token_identity "Certificate of Achievement"
    ⟨"Ann", "T", "D", [("org", "ACME")]⟩ (by decide) (by decide)

/-- C10: substitution is sequential (name, title, date, then custom
fields) over the already-rewritten string, so a substituted field value
containing a later key's token is itself rewritten: with
`name = "{{date}}"` and `date = "2024"`, substituting `{{name}}` yields
`"2024"`, not the `name` value verbatim. -/
theorem c10_sequential_cascade :
    substitute (String.mk nameTok) ⟨String.mk dateTok, "", "2024", []⟩ = "2024" ∧
      substitute (String.mk nameTok) ⟨String.mk dateTok, "", "2024", []⟩ ≠
        String.mk dateTok :=
  ⟨by decide, by decide⟩

/-- C4 counterexample: the unconditional equation
`substitute "{{name}}" R = R.name` fails twice over — when `R.name`
contains a later-applied token (`name = "{{title}}"`, `title = "T"`
gives `"T"`), and when `R.name` contains a `$`-substitution pattern
(`name = "$$"` gives `"$"`, since `String.replace` rewrites `$$` to a
single dollar). -/
theorem c4_counterexample :
    substitute (String.mk nameTok) ⟨String.mk titleTok, "T", "", []⟩ ≠
        (⟨String.mk titleTok, "T", "", []⟩ : BatchRecipient).name ∧
      substitute (String.mk nameTok) ⟨"$$", "", "", []⟩ ≠
        (⟨"$$", "", "", []⟩ : BatchRecipient).name :=
  ⟨by decide, by decide⟩

/-- C4 (amended): when the recipient's standard field values contain no
`{{` opener and no `$`, and the custom keys are plain, every standard
token — matched case-insensitively, so both `{{name}}` and `{{NAME}}` —
substitutes to the corresponding standard field (`title`/`date` being
the stored string, empty when absent). -/
theorem c4_standard_tokens (r : BatchRecipient)
    (hkeys : ∀ kv ∈ r.customFields, plainKey kv.1 = true)
    (hn : containsSub openTok r.name.data = false) (hnd : '$' ∉ r.name.data)
    (ht : containsSub openTok r.title.data = false) (htd : '$' ∉ r.title.data)
    (hd : containsSub openTok r.date.data = false) (hdd : '$' ∉ r.date.data) :
    substitute (String.mk nameTok) r = r.name ∧
    substitute (String.mk ['{', '{', 'N', 'A', 'M', 'E', '}', '}']) r = r.name ∧
    substitute (String.mk titleTok) r = r.title ∧
    substitute (String.mk ['{', '{', 'T', 'I', 'T', 'L', 'E', '}', '}']) r = r.title ∧
    substitute (String.mk dateTok) r = r.date ∧
    substitute (String.mk ['{', '{', 'D', 'A', 'T', 'E', '}', '}']) r = r.date :=
  ⟨substitute_name_std r (by decide) (by decide) hkeys hn hnd,
   substitute_name_std r (by decide) (by decide) hkeys hn hnd,
   substitute_title_std r (by decide) (by decide) hkeys ht htd,
   substitute_title_std r (by decide) (by decide) hkeys ht htd,
   substitute_date_std r (by decide) (by decide) hkeys hd hdd,
   substitute_date_std r (by decide) (by decide) hkeys hd hdd⟩

/-- C4 witness: the six amended equations at a concrete recipient. -/
theorem c4_standard_tokens_witness :
    substitute (String.mk nameTok) ⟨"Ann", "Chief", "2024-01-01", [("org", "ACME")]⟩ = "Ann" ∧
    substitute (String.mk ['{', '{', 'N', 'A', 'M', 'E', '}', '}'])
      ⟨"Ann", "Chief", "2024-01-01", [("org", "ACME")]⟩ = "Ann" ∧
    substitute (String.mk titleTok) ⟨"Ann", "Chief", "2024-01-01", [("org", "ACME")]⟩ = "Chief" ∧
    substitute (String.mk ['{', '{', 'T', 'I', 'T', 'L', 'E', '}', '}'])
      ⟨"Ann", "Chief", "2024-01-01", [("org", "ACME")]⟩ = "Chief" ∧
    substitute (String.mk dateTok) ⟨"Ann", "Chief", "2024-01-01", [("org", "ACME")]⟩ = "2024-01-01" ∧
    substitute (String.mk ['{', '{', 'D', 'A', 'T', 'E', '}', '}'])
      ⟨"Ann", "Chief", "2024-01-01", [("org", "ACME")]⟩ = "2024-01-01" :=
  c4_standard_tokens ⟨"Ann", "Chief", "2024-01-01", [("org", "ACME")]⟩
    (by decide) (by decide) (by decide) (by decide) (by decide)
    (by decide) (by decide)

/-- C8 counterexample: with `name = "{{name}}"` and a custom entry
`("name", "X")`, the token `{{name}}` ends up resolved to the custom
value `"X"`, not to the standard field; and with `name = "$$"` the
`$`-substitution already makes the result `"$"`, not `R.name`. -/
theorem c8_counterexample :
    (substitute (String.mk nameTok) ⟨String.mk nameTok, "", "", [("name", "X")]⟩ = "X" ∧
      ("X" : String) ≠
        (⟨String.mk nameTok, "", "", [("name", "X")]⟩ : BatchRecipient).name) ∧
      substitute (String.mk nameTok) ⟨"$$", "", "", [("name", "X")]⟩ ≠
        (⟨"$$", "", "", [("name", "X")]⟩ : BatchRecipient).name :=
  ⟨⟨by decide, by decide⟩, by decide⟩

/-- C8 (amended): for a recipient whose `customFields` contains an entry
named `name`, `title` or `date`, the standard tokens still resolve to
the standard fields — the standard replacements run first — provided the
standard field values contain no `{{` opener and no `$`, and the custom
keys are plain (otherwise the C10 cascade or the `$`-substitution
rewrites the inserted value). -/
theorem c8_standard_precedence (r : BatchRecipient) (v : String)
    (_hmem : ("name", v) ∈ r.customFields ∨ ("title", v) ∈ r.customFields ∨
      ("date", v) ∈ r.customFields)
    (hkeys : ∀ kv ∈ r.customFields, plainKey kv.1 = true)
    (hn : containsSub openTok r.name.data = false) (hnd : '$' ∉ r.name.data)
    (ht : containsSub openTok r.title.data = false) (htd : '$' ∉ r.title.data)
    (hd : containsSub openTok r.date.data = false) (hdd : '$' ∉ r.date.data) :
    substitute (String.mk nameTok) r = r.name ∧
    substitute (String.mk titleTok) r = r.title ∧
    substitute (String.mk dateTok) r = r.date :=
  ⟨substitute_name_std r (by decide) (by decide) hkeys hn hnd,
   substitute_title_std r (by decide) (by decide) hkeys ht htd,
   substitute_date_std r (by decide) (by decide) hkeys hd hdd⟩

/-- C8 witness: with a conflicting custom entry `("name", "Bob")`, the
standard tokens still produce the standard fields. -/
theorem c8_standard_precedence_witness :
    substitute (String.mk nameTok) ⟨"Ann", "T", "D", [("name", "Bob")]⟩ = "Ann" ∧
    substitute (String.mk titleTok) ⟨"Ann", "T", "D", [("name", "Bob")]⟩ = "T" ∧
    substitute (String.mk dateTok) ⟨"Ann", "T", "D", [("name", "Bob")]⟩ = "D" :=
  c8_standard_precedence ⟨"Ann", "T", "D", [("name", "Bob")]⟩ "Bob"
    (Or.inl (by decide)) (by decide) (by decide) (by decide) (by decide)
    (by decide) (by decide) (by decide)

/-- C9 counterexample: a custom key with a regex metacharacter captures
an unknown token — the entry `("o.g", "v")` builds `/\{\{o.g\}\}/gi`,
whose `.` wildcard matches `{{org}}`, although `org` is none of the
standard keys and has no custom entry of its own. -/
theorem c9_counterexample :
    substitute (String.mk (customTok "org")) ⟨"Ann", "", "", [("o.g", "v")]⟩ = "v" ∧
      ("v" : String) ≠ String.mk (customTok "org") :=
  ⟨by decide, by decide⟩

/-- C9 (amended): a token `{{k}}` whose brace-free key is
(case-insensitively) none of `name`/`title`/`date` and whose
recipient's custom keys are plain and all (case-insensitively)
different from `k` is left literally unchanged, and no error arises. -/
theorem c9_unknown_key_untouched (k : String) (r : BatchRecipient)
    (hbr : ∀ c ∈ k.data, c ≠ '{' ∧ c ≠ '}')
    (hkn : lowerL k.data ≠ "name".data)
    (hkt : lowerL k.data ≠ "title".data)
    (hkd : lowerL k.data ≠ "date".data)
    (hcf : ∀ kv ∈ r.customFields,
      plainKey kv.1 = true ∧ lowerL kv.1.data ≠ lowerL k.data) :
    substitute (String.mk (customTok k)) r = String.mk (customTok k) := by
  unfold substitute substituteL
  simp only
  rw [show nameTok = '{' :: '{' :: (['n', 'a', 'm', 'e'] ++ ['}', '}']) from rfl,
    replaceTok_tok_at_tok hbr
      (by rw [show lowerL ['n', 'a', 'm', 'e'] = ['n', 'a', 'm', 'e'] from by decide]
          exact fun h => hkn h.symm),
    show titleTok = '{' :: '{' :: (['t', 'i', 't', 'l', 'e'] ++ ['}', '}']) from rfl,
    replaceTok_tok_at_tok hbr
      (by rw [show lowerL ['t', 'i', 't', 'l', 'e'] = ['t', 'i', 't', 'l', 'e'] from by decide]
          exact fun h => hkt h.symm),
    show dateTok = '{' :: '{' :: (['d', 'a', 't', 'e'] ++ ['}', '}']) from rfl,
    replaceTok_tok_at_tok hbr
      (by rw [show lowerL ['d', 'a', 't', 'e'] = ['d', 'a', 't', 'e'] from by decide]
          exact fun h => hkd h.symm),
    foldl_replaceTok_id fun kv hkv => by
      rw [customAlts_plain (hcf kv hkv).1]
      exact replaceTok_tok_at_tok hbr (hcf kv hkv).2]

/-- C9 witness: `{{org}}` survives substitution untouched for a
recipient with an unrelated (plain) custom field. -/
theorem c9_unknown_key_untouched_witness :
    substitute (String.mk (customTok "org")) ⟨"Ann", "", "", [("dept", "Sales")]⟩ =
      String.mk (customTok "org") :=
  c9_unknown_key_untouched "org" ⟨"Ann", "", "", [("dept", "Sales")]⟩
    (by decide) (by decide) (by decide) (by decide) (by decide)

/-! ## Claims about loader, validator, archive and events -/

/-- C6: parsing is all-or-nothing — the first record without a non-empty
`name` aborts the load with an error naming its 0-based index (and no
recipients are returned), while on success every recipient is returned
with `title`/`date` defaulted to `""` and `customFields` to the empty
mapping. -/
theorem c6_loader_all_or_nothing (pre post rows : List RawRecipient)
    (bad : RawRecipient) :
    ((∀ r ∈ pre, validName r = true) → validName bad = false →
      parseRecipientsFile (some (pre ++ bad :: post)) =
        Except.error ("Failed to parse JSON: " ++ missingNameMsg pre.length)) ∧
    ((∀ r ∈ rows, validName r = true) →
      parseRecipientsFile (some rows) = Except.ok (rows.map toRecipient)) := by
  constructor
  · intro hpre hbad
    simp only [parseRecipientsFile]
    rw [parseRows_error post hbad pre 0 hpre]
    simp
  · intro hall
    simp only [parseRecipientsFile]
    rw [parseRows_ok rows 0 hall]

/-- C6 witness: the spec's loader scenario — second record invalid gives
the index-1 error; a valid file gives the fully defaulted recipient. -/
theorem c6_loader_all_or_nothing_witness :
    parseRecipientsFile
        (some [⟨some "Bo", none, none, none⟩, ⟨none, some "x", none, none⟩]) =
      Except.error ("Failed to parse JSON: " ++ missingNameMsg 1) ∧
    parseRecipientsFile (some [⟨some "Bo", none, none, none⟩]) =
      Except.ok [⟨"Bo", "", "", []⟩] :=
  ⟨(c6_loader_all_or_nothing [⟨some "Bo", none, none, none⟩] []
      [⟨some "Bo", none, none, none⟩] ⟨none, some "x", none, none⟩).1
      (by decide) (by decide),
    (c6_loader_all_or_nothing [] [] [⟨some "Bo", none, none, none⟩]
      ⟨none, some "x", none, none⟩).2 (by decide)⟩

/-- C7: the validator does not short-circuit — its error list is exactly
one message per (recipient, required key) pair whose resolved value is
falsy, in order, each naming the recipient's 1-based position, its name
and the key — and `valid` is `true` iff that list is empty. -/
theorem c7_validator_reports_all (rs : List BatchRecipient) (keys : List String) :
    (validateRecipientData rs keys).2 = specErrors 0 rs keys ∧
      ((validateRecipientData rs keys).1 = true ↔
        (validateRecipientData rs keys).2 = []) := by
  have h2 : (validateRecipientData rs keys).2 = specErrors 0 rs keys := by
    simp only [validateRecipientData, List.enum]
    rw [enumFrom_foldl_specErrors]
    simp
  refine ⟨h2, ?_⟩
  simp only [validateRecipientData]
  simp [List.length_eq_zero]

/-- C1 counterexample: recipients `"Ann"` and `"ann!"` sanitize to the
same archive name, so a successful 2-recipient batch stores 1 entry,
not `len(recipients)`. -/
theorem c1_counterexample :
    (batchEntries (fun r => r.name)
        [⟨"Ann", "", "", []⟩, ⟨"ann!", "", "", []⟩]).length = 1 ∧
      (batchEntries (fun r => r.name)
          [⟨"Ann", "", "", []⟩, ⟨"ann!", "", "", []⟩]).length ≠
        ([⟨"Ann", "", "", []⟩, ⟨"ann!", "", "", []⟩] :
          List BatchRecipient).length :=
  ⟨by decide, by decide⟩

/-- C1 (amended): on success the archive holds the entries
`certificate_<sanitized-name>.png` in recipient order, and exactly
`len(recipients)` of them whenever the sanitized names are pairwise
distinct (colliding names overwrite an earlier entry instead). -/
theorem c1_entries_when_distinct {α : Type} (render : BatchRecipient → α)
    (rs : List BatchRecipient) (hnodup : (rs.map certName).Nodup) :
    (batchEntries render rs).map Prod.fst = rs.map certName ∧
      (batchEntries render rs).length = rs.length := by
  have h : (batchEntries render rs).map Prod.fst = rs.map certName := by
    simpa [batchEntries] using
      batchEntries_fold_names render rs [] hnodup (by simp)
  refine ⟨h, ?_⟩
  have hlen := congrArg List.length h
  simpa using hlen

/-- C1 witness: two distinct sanitized names give exactly two entries
with the expected names. -/
theorem c1_entries_when_distinct_witness :
    (batchEntries (fun r => r.name)
        [⟨"Ann", "", "", []⟩, ⟨"Bo", "", "", []⟩]).map Prod.fst =
      ([⟨"Ann", "", "", []⟩, ⟨"Bo", "", "", []⟩] :
        List BatchRecipient).map certName ∧
    (batchEntries (fun r => r.name)
      [⟨"Ann", "", "", []⟩, ⟨"Bo", "", "", []⟩]).length = 2 :=
  c1_entries_when_distinct (fun r => r.name)
    [⟨"Ann", "", "", []⟩, ⟨"Bo", "", "", []⟩] (by decide)

/-- C2 counterexample: a successful 1-recipient run emits `current`
values `[0, 0, 1]` — the initial snapshot and the first loop snapshot
coincide — so the event sequence is not strictly increasing. -/
theorem c2_counterexample :
    (batchEvents [⟨"Ann", "", "", []⟩] .success).map (fun e => e.current) =
        [0, 0, 1] ∧
      ¬ List.Chain' (· < ·)
        ((batchEvents [⟨"Ann", "", "", []⟩] .success).map fun e => e.current) := by
  refine ⟨by decide, ?_⟩
  intro hch
  rw [show (batchEvents [⟨"Ann", "", "", []⟩] .success).map (fun e => e.current) =
      [0, 0, 1] from by decide] at hch
  exact absurd (List.chain'_cons.1 hch).1 (by decide)

/-- C2 (amended): within one run the emitted `current` values are
monotonically non-decreasing for every outcome, and a successful run
emits the initial `0`, then `0, 1, …, N-1` (one per recipient, strictly
increasing), then the final `N` of the `complete` event. -/
theorem c2_monotone_events (rs : List BatchRecipient) (o : BatchOutcome)
    (hv : validOutcome rs o) :
    List.Chain' (· ≤ ·) ((batchEvents rs o).map fun e => e.current) ∧
      (batchEvents rs .success).map (fun e => e.current) =
        0 :: (List.range rs.length ++ [rs.length]) := by
  have hsucc : (batchEvents rs .success).map (fun e => e.current) =
      0 :: (List.range rs.length ++ [rs.length]) := by
    simp [batchEvents, initEvent, completeEvent, loopEvents_currents,
      List.map_append]
  refine ⟨?_, hsucc⟩
  cases o with
  | success =>
    rw [hsucc]
    exact chainLE_shape rs.length [rs.length] (by simp)
      fun x hx y hy => by simp at hy; omega
  | loadFailure src =>
    have hmap : (batchEvents rs (.loadFailure src)).map (fun e => e.current) =
        [0, 0] := by
      simp [batchEvents, initEvent, errorEvent]
    rw [hmap]
    exact List.Pairwise.chain' (by simp)
  | recipientFailure i m =>
    have hv' : i < rs.length := hv
    have hlen : (rs.take (i + 1)).length = i + 1 := by
      rw [List.length_take]
      omega
    have hmap : (batchEvents rs (.recipientFailure i m)).map (fun e => e.current) =
        0 :: (List.range (i + 1) ++ [i]) := by
      simp [batchEvents, initEvent, errorEvent, loopEvents_currents, hlen]
    rw [hmap]
    exact chainLE_shape (i + 1) [i] (by simp)
      fun x hx y hy => by simp at hy; omega
  | archiveFailure m =>
    have hmap : (batchEvents rs (.archiveFailure m)).map (fun e => e.current) =
        0 :: (List.range rs.length ++ [rs.length, rs.length]) := by
      simp [batchEvents, initEvent, errorEvent, completeEvent,
        loopEvents_currents]
    rw [hmap]
    exact chainLE_shape rs.length [rs.length, rs.length] (by simp)
      fun x hx y hy => by simp at hy; omega

/-- C2 witness: the amended statement at a concrete 1-recipient run. -/
theorem c2_monotone_events_witness :
    List.Chain' (· ≤ ·)
        ((batchEvents [⟨"Ann", "", "", []⟩] .success).map fun e => e.current) ∧
      (batchEvents [⟨"Ann", "", "", []⟩] .success).map (fun e => e.current) =
        0 :: (List.range 1 ++ [1]) :=
  c2_monotone_events [⟨"Ann", "", "", []⟩] .success trivial

theorem getLast?_cons_concat {a e : BatchProgress} (l : List BatchProgress) :
    (a :: (l ++ [e])).getLast? = some e := by
  rw [show a :: (l ++ [e]) = (a :: l) ++ [e] from rfl]
  exact List.getLast?_concat _

/-- C5: every failure (image load, render/encode at some recipient, or
archive generation) makes the final emitted event an `error` event
carrying the failure's (non-empty) message, re-raises that same message
to the caller, and yields no archive. -/
theorem c5_failure_terminal {α : Type} (render : BatchRecipient → α)
    (rs : List BatchRecipient) (o : BatchOutcome) (m : String)
    (hm : BatchOutcome.message o = some m) (hne : m ≠ "")
    (hv : validOutcome rs o) :
    ((batchEvents rs o).getLast?).map (fun e => (e.status, e.error)) =
        some (BatchStatus.error, some m) ∧
      batchResult render rs o = Except.error m ∧ m ≠ "" := by
  cases o with
  | success => exact absurd hm (by simp [BatchOutcome.message])
  | loadFailure src =>
    simp only [BatchOutcome.message, Option.some.injEq] at hm
    subst hm
    refine ⟨?_, rfl, hne⟩
    simp [batchEvents, errorEvent]
  | recipientFailure i msg =>
    simp only [BatchOutcome.message, Option.some.injEq] at hm
    subst hm
    refine ⟨?_, rfl, hne⟩
    simp only [batchEvents]
    rw [getLast?_cons_concat]
    simp [errorEvent]
  | archiveFailure msg =>
    simp only [BatchOutcome.message, Option.some.injEq] at hm
    subst hm
    refine ⟨?_, rfl, hne⟩
    simp only [batchEvents]
    rw [show loopEvents rs.length rs ++
        [completeEvent rs, errorEvent rs.length rs.length (lastNameOf rs) msg] =
        (loopEvents rs.length rs ++ [completeEvent rs]) ++
          [errorEvent rs.length rs.length (lastNameOf rs) msg] from by simp,
      getLast?_cons_concat]
    simp [errorEvent]

/-- C5 witness: a failing background-image load on an empty batch. -/
theorem c5_failure_terminal_witness :
    ((batchEvents [] (.loadFailure "bg.png")).getLast?).map
        (fun e => (e.status, e.error)) =
      some (BatchStatus.error, some "Failed to load image: bg.png") ∧
    batchResult (fun r => r.name) [] (.loadFailure "bg.png") =
      Except.error "Failed to load image: bg.png" ∧
    ("Failed to load image: bg.png" : String) ≠ "" :=
  c5_failure_terminal (fun r => r.name) [] (.loadFailure "bg.png")
    "Failed to load image: bg.png" (by decide) (by decide) trivial

end Cert







